import Mathlib

/-!
Verification model of the cargo2nix core (src/main.rs).

The development shallowly embeds the data model and the algorithms of the
optionality pipeline: the per-package view built by `ResolvedPackage::new`,
the tracker passes `mark_required` and `activate`, the simplifier
`simplify_optionality`, and the boolean-expression synthesis
`Optionality::to_expr`.  Rust `BTreeMap`s keyed by `(PackageId, DependencyKind)`
are embedded as association lists; `BTreeSet`s are embedded as `Finset`s
(extensional sets, matching `BTreeSet` equality); in-place mutation is
embedded as explicit state passing.
-/

namespace Cargo2nix

/-- Models cargo's `PackageId` (name, version, source): a totally ordered
opaque package identity.  Only its decidable equality and total order are
used by the embedded code. -/
abbrev PackageId := Nat

abbrev PackageName := String

abbrev Feature := String

/-- `type RootFeature<'a> = (PackageName<'a>, Feature<'a>)`. -/
abbrev RootFeature := PackageName × Feature

/-- Models `cargo_platform::Platform` as an opaque value. -/
abbrev Platform := String

/-- cargo's `dependency::Kind`, in declaration order `Normal`, `Development`,
`Build`; the derived `Ord` compares in this order. -/
inductive DependencyKind
  | Normal
  | Development
  | Build
deriving DecidableEq, Repr

/-- The rank of a `DependencyKind` under cargo's derived `Ord`. -/
def DependencyKind.toNat : DependencyKind → Nat
  | .Normal => 0
  | .Development => 1
  | .Build => 2

/-- Key of the `deps` map of a `ResolvedPackage`: `(PackageId, DependencyKind)`. -/
abbrev DepKey := PackageId × DependencyKind

/-- The derived lexicographic `Ord` on `(PackageId, DependencyKind)` used by
the `BTreeMap` holding the dependency edges. -/
def depKeyLE (a b : DepKey) : Bool :=
  Nat.blt a.1 b.1 || (a.1 == b.1 && Nat.ble a.2.toNat b.2.toNat)

/-- Membership in the key range `(id, Normal)..=(id, Build)` queried by
`ResolvedPackage::iter_deps_with_id_mut`. -/
def inKeyRange (id : PackageId) (k : DepKey) : Bool :=
  depKeyLE (id, DependencyKind.Normal) k && depKeyLE k (id, DependencyKind.Build)

/-- `enum Optionality<'a>` from src/main.rs. -/
inductive Optionality
  | Required
  | Optional (required_by_pkgs : Finset PackageName)
      (activated_by_features : Finset RootFeature)
deriving DecidableEq

/-- `impl Default for Optionality`: empty sets. -/
def Optionality.default : Optionality := .Optional ∅ ∅

/-- `Optionality::required_by`. -/
def Optionality.required_by (o : Optionality) (pkg_name : PackageName) : Optionality :=
  match o with
  | .Required => .Required
  | .Optional required_by_pkgs activated_by_features =>
      .Optional (insert pkg_name required_by_pkgs) activated_by_features

/-- `Optionality::activated_by`. -/
def Optionality.activated_by (o : Optionality) (rf : RootFeature) : Optionality :=
  match o with
  | .Required => .Required
  | .Optional required_by_pkgs activated_by_features =>
      if rf.1 ∈ required_by_pkgs then
        .Optional required_by_pkgs activated_by_features
      else
        .Optional required_by_pkgs (insert rf activated_by_features)

/-- `struct ResolvedDependency<'a>`.  The field `crate_name` embeds the
source's `extern_name` (the linkage name); the target `&Package` reference is
recoverable from the key of the `deps` map and is omitted. -/
structure ResolvedDependency where
  crate_name : String
  optionality : Optionality
  platforms : Option (List Platform)
deriving DecidableEq

/-- `struct ResolvedPackage<'a>` restricted to the fields the optionality
pipeline reads or writes (`deps`, `features`); the `BTreeMap`s are embedded
as association lists with unique keys. -/
@[ext]

structure ResolvedPackage where
  deps : List (DepKey × ResolvedDependency)
  features : List (Feature × Optionality)
deriving DecidableEq

/-- `fn all_eq<T, I>(i: I) -> bool`: all items equal to the first. -/
def all_eq {α : Type _} [DecidableEq α] (l : List α) : Bool :=
  match l with
  | [] => true
  | first :: rest => rest.all (fun x => x == first)

/-- Rule 1 of the simplifier applied to one `Optionality`: promote to
`Required` when the `required_by_pkgs` set has exactly `n_root_pkgs`
elements. -/
def Optionality.promote (n_root_pkgs : Nat) (o : Optionality) : Optionality :=
  match o with
  | .Required => .Required
  | .Optional required_by_pkgs activated_by_features =>
      if required_by_pkgs.card = n_root_pkgs then .Required
      else .Optional required_by_pkgs activated_by_features

/-- Rule 1 acting on one entry of the `deps` map: `iter_optionality_mut`
skips edges of kind `Development`. -/
def depPromote (n : Nat) (kd : DepKey × ResolvedDependency) : DepKey × ResolvedDependency :=
  if kd.1.2 ≠ DependencyKind.Development then
    (kd.1, { kd.2 with optionality := Optionality.promote n kd.2.optionality })
  else kd

/-- The first loop of `simplify_optionality` (universal-requirement
promotion over `iter_optionality_mut`). -/
def ResolvedPackage.applyRule1 (n : Nat) (rp : ResolvedPackage) : ResolvedPackage :=
  { rp with
    deps := rp.deps.map (depPromote n)
    features := rp.features.map (fun fo => (fo.1, Optionality.promote n fo.2)) }

/-- Rule 2 acting on one entry of the `deps` map: development edges are
forced to `Required`. -/
def depForce (kd : DepKey × ResolvedDependency) : DepKey × ResolvedDependency :=
  if kd.1.2 = DependencyKind.Development then
    (kd.1, { kd.2 with optionality := Optionality.Required })
  else kd

/-- The second step of `simplify_optionality`: dev dependencies can't be
optional. -/
def ResolvedPackage.applyRule2 (rp : ResolvedPackage) : ResolvedPackage :=
  { rp with deps := rp.deps.map depForce }

/-- The sequence of `Optionality` values yielded by
`ResolvedPackage::iter_optionality_mut`: the non-development dependency
edges followed by the features. -/
def ResolvedPackage.optionalities (rp : ResolvedPackage) : List Optionality :=
  (rp.deps.filter (fun kd => kd.1.2 ≠ DependencyKind.Development)).map
      (fun kd => kd.2.optionality)
    ++ rp.features.map (fun fo => fo.2)

/-- Rule 3's write acting on one entry of the `deps` map (through
`iter_optionality_mut`, so development edges are skipped). -/
def depCollapse (kd : DepKey × ResolvedDependency) : DepKey × ResolvedDependency :=
  if kd.1.2 ≠ DependencyKind.Development then
    (kd.1, { kd.2 with optionality := Optionality.Required })
  else kd

/-- The third step of `simplify_optionality`: homogeneous-package collapse. -/
def ResolvedPackage.applyRule3 (rp : ResolvedPackage) : ResolvedPackage :=
  if all_eq rp.optionalities then
    { rp with
      deps := rp.deps.map depCollapse
      features := rp.features.map (fun fo => (fo.1, Optionality.Required)) }
  else rp

/-- The body of `simplify_optionality`'s loop for one `ResolvedPackage`. -/
def simplify_one (n : Nat) (rp : ResolvedPackage) : ResolvedPackage :=
  ((rp.applyRule1 n).applyRule2).applyRule3

/-- `fn simplify_optionality`: iterate over the resolved packages. -/
def simplify_optionality (rpkgs : List ResolvedPackage) (n_root_pkgs : Nat) :
    List ResolvedPackage :=
  rpkgs.map (simplify_one n_root_pkgs)

/-- The state of one package after rules 1 and 2 of the simplifier. -/
def rule12 (n : Nat) (rp : ResolvedPackage) : ResolvedPackage :=
  (rp.applyRule1 n).applyRule2

/-- The package produced by the collapse branch of rule 3. -/
def collapseAll (rp : ResolvedPackage) : ResolvedPackage :=
  { rp with
    deps := rp.deps.map depCollapse
    features := rp.features.map (fun fo => (fo.1, Optionality.Required)) }

/-! ### The optionality tracker: `mark_required` and `activate`

The `rpkgs_by_id : BTreeMap<PackageId, ResolvedPackage>` mutated in place by
the tracker is embedded as an association list threaded through the passes.
A Gateway resolution is embedded by what the passes read from it: per
reachable package instance, its id, its activated features
(`targeted_resolve.features(id)`) and the target ids of its present
dependency edges (`targeted_resolve.deps(id)`). -/

/-- The `rpkgs_by_id` map. -/
abbrev TrackerState := List (PackageId × ResolvedPackage)

/-- One reachable package instance of a Gateway resolution. -/
structure ResolutionEntry where
  id : PackageId
  feats : List Feature
  depIds : List PackageId
deriving DecidableEq

/-- A Gateway resolution: the reachable package instances. -/
abbrev Resolution := List ResolutionEntry

/-- Update the entries of a map that satisfy a key predicate, in place. -/
def condMap {α : Type _} (p : α → Bool) (u : α → α) (x : α) : α :=
  if p x then u x else x

/-- `rpkg.features.get_mut(feature)` followed by a write of `g`. -/
def ResolvedPackage.updFeature (rp : ResolvedPackage) (f : Feature)
    (g : Optionality → Optionality) : ResolvedPackage :=
  { rp with
    features := rp.features.map (condMap (fun fo => fo.1 == f) (fun fo => (fo.1, g fo.2))) }

/-- `rpkg.iter_deps_with_id_mut(id)` followed by a write of `g` to the
optionality of each edge in the key range `(id, Normal)..=(id, Build)`. -/
def ResolvedPackage.updDepsWithId (rp : ResolvedPackage) (id : PackageId)
    (g : Optionality → Optionality) : ResolvedPackage :=
  { rp with
    deps := rp.deps.map (condMap (fun kd => inKeyRange id kd.1)
      (fun kd => (kd.1, { kd.2 with optionality := g kd.2.optionality }))) }

/-- The loop body shared by `mark_required` and `activate` for one reachable
package instance: fold `g` into every activated feature, then into every
present dependency edge. -/
def applyEntryPkg (g : Optionality → Optionality) (e : ResolutionEntry)
    (rp : ResolvedPackage) : ResolvedPackage :=
  e.depIds.foldl (fun rp d => rp.updDepsWithId d g)
    (e.feats.foldl (fun rp f => rp.updFeature f g) rp)

/-- `rpkgs_by_id.get_mut(&id)` followed by an in-place update. -/
def updatePkg (id : PackageId) (F : ResolvedPackage → ResolvedPackage)
    (st : TrackerState) : TrackerState :=
  st.map (condMap (fun pr => pr.1 == id) (fun pr => (pr.1, F pr.2)))

/-- The `for id in resolve.targeted_resolve.iter()` loop shared by
`mark_required` and `activate`. -/
def processResolution (g : Optionality → Optionality) (res : Resolution)
    (st : TrackerState) : TrackerState :=
  res.foldl (fun st e => updatePkg e.id (applyEntryPkg g e) st) st

/-- `fn mark_required`, applied to the baseline resolution the Gateway
returns for the given root package. -/
def mark_required (root_pkg_name : PackageName) (res : Resolution)
    (st : TrackerState) : TrackerState :=
  processResolution (fun o => o.required_by root_pkg_name) res st

/-- `fn activate`, applied to the resolution the Gateway returns for the
given root package with exactly the given root feature activated. -/
def activate (pkg_name : PackageName) (feature : Feature) (res : Resolution)
    (st : TrackerState) : TrackerState :=
  processResolution (fun o => o.activated_by (pkg_name, feature)) res st

/-- The fixed set of inputs of the tracker: the resolutions the Resolution
Gateway returns for each baseline scope and each (root package, root
feature) scope. -/
structure GatewayInputs where
  baseline : PackageName → Resolution
  perFeature : PackageName → Feature → Resolution

/-- The body of the root-package loop of `generate_cargo_nix`: the baseline
pass, then one feature pass per root feature of this root package. -/
def processRootPkg (inputs : GatewayInputs) (root : PackageName × List Feature)
    (st : TrackerState) : TrackerState :=
  root.2.foldl (fun st f => activate root.1 f (inputs.perFeature root.1 f) st)
    (mark_required root.1 (inputs.baseline root.1) st)

/-- The root-package loop of `generate_cargo_nix`. -/
def runTracker (inputs : GatewayInputs) (roots : List (PackageName × List Feature))
    (st : TrackerState) : TrackerState :=
  roots.foldl (fun st r => processRootPkg inputs r st) st

/-- Whether a resolution reports feature `name` active on package `id`. -/
def featureReached (res : Resolution) (id : PackageId) (name : Feature) : Bool :=
  res.any fun e => e.id == id && e.feats.any fun x => x == name

/-- Whether a resolution reports a dependency edge of package `id` on target
`tid` present. -/
def depReached (res : Resolution) (id : PackageId) (tid : PackageId) : Bool :=
  res.any fun e => e.id == id && e.depIds.any fun x => x == tid

/-! ### Commutation of the tracker's state updates -/

/-- Two state transformers commute pointwise. -/
def CommF {α : Type _} (f g : α → α) : Prop := ∀ x, f (g x) = g (f x)

/-! ### Boolean expression synthesis: `Optionality::to_expr` -/

/-- The `BTreeSet` iteration order on `RootFeature` pairs: the derived
lexicographic order on `(PackageName, Feature)`. -/
def rootFeatureLE (a b : RootFeature) : Prop :=
  a.1 < b.1 ∨ (a.1 = b.1 ∧ a.2 ≤ b.2)

instance rootFeatureLE.decidable : DecidableRel rootFeatureLE := fun a b => by
  unfold rootFeatureLE
  infer_instance

instance rootFeatureLE.isTrans : IsTrans RootFeature rootFeatureLE := by
  constructor
  intro a b c hab hbc
  rcases hab with h | ⟨he, hle⟩ <;> rcases hbc with h' | ⟨he', hle'⟩
  · exact Or.inl (h.trans h')
  · exact Or.inl (lt_of_lt_of_eq h he')
  · exact Or.inl (lt_of_eq_of_lt he h')
  · exact Or.inr ⟨he.trans he', hle.trans hle'⟩

instance rootFeatureLE.isAntisymm : IsAntisymm RootFeature rootFeatureLE := by
  constructor
  intro a b hab hba
  rcases hab with h | ⟨he, hle⟩
  · rcases hba with h' | ⟨he', _⟩
    · exact absurd (h.trans h') (lt_irrefl _)
    · exact absurd he' (ne_of_gt h)
  · rcases hba with h' | ⟨_, hle'⟩
    · exact absurd he (ne_of_gt h')
    · exact Prod.ext he (le_antisymm hle hle')

instance rootFeatureLE.isTotal : IsTotal RootFeature rootFeatureLE := by
  constructor
  intro a b
  rcases lt_trichotomy a.1 b.1 with h | h | h
  · exact Or.inl (Or.inl h)
  · rcases le_total a.2 b.2 with hle | hle
    · exact Or.inl (Or.inr ⟨h, hle⟩)
    · exact Or.inr (Or.inr ⟨h.symm, hle⟩)
  · exact Or.inr (Or.inl h)

/-- Sorted iteration of a `BTreeSet<RootFeature>`. -/
def sortRootFeatures (s : Finset RootFeature) : List RootFeature :=
  s.sort rootFeatureLE

/-- Sorted iteration of a `BTreeSet<PackageName>`. -/
def sortNames (s : Finset PackageName) : List PackageName :=
  s.sort (· ≤ ·)

/-- Rust's `{:?}` Debug formatting of a string: quoted, backslash and quote
escaped (the characters that can occur in the names at hand). -/
def rustDebug (s : String) : String :=
  "\"" ++ ((s.replace "\\" "\\\\").replace "\"" "\\\"") ++ "\""

/-- `fn display_root_feature`. -/
def display_root_feature (rf : RootFeature) : String :=
  rf.1 ++ "/" ++ rf.2

/-- Modelled from the spec: the `BoolExpr` grammar of §3 — the expr module
of the repository is not under src, so its type is taken from the spec:
`True | False | Single(atom) | Or(list) | And(list)`, atoms are opaque
query strings. -/
inductive BoolExpr
  | True
  | False
  | Single (atom : String)
  | Or (xs : List BoolExpr)
  | And (xs : List BoolExpr)

/-- Modelled from the spec: `BoolExpr::ors` of the expr module builds the
disjunction of the given expressions; per §4.4 an empty disjunction denotes
`False` (never needed) and is preserved, not treated as an error. -/
def BoolExpr.ors (xs : List BoolExpr) : BoolExpr :=
  match xs with
  | [] => BoolExpr.False
  | xs => BoolExpr.Or xs

/-- `Optionality::to_expr`: `Required` becomes `True`; an `Optional` becomes
the disjunction of one selection-query atom per `activated_by_features`
entry and one per `required_by_pkgs` entry, iterated in `BTreeSet` order. -/
def Optionality.to_expr (o : Optionality) (root_features_var : String) : BoolExpr :=
  match o with
  | .Required => BoolExpr.True
  | .Optional required_by_pkgs activated_by_features =>
      BoolExpr.ors
        ((sortRootFeatures activated_by_features).map (fun rf =>
            BoolExpr.Single (root_features_var ++ " ? "
              ++ rustDebug (display_root_feature rf)))
          ++ (sortNames required_by_pkgs).map (fun pkg_name =>
            BoolExpr.Single (root_features_var ++ " ? " ++ rustDebug pkg_name)))

mutual

/-- Whether a conjunction node occurs anywhere in the expression. -/
def BoolExpr.hasAnd : BoolExpr → Bool
  | BoolExpr.And _ => true
  | BoolExpr.Or xs => hasAndList xs
  | _ => false

def hasAndList : List BoolExpr → Bool
  | [] => false
  | x :: xs => x.hasAnd || hasAndList xs

end

/-! ### The graph builder: `ResolvedPackage::new` -/

/-- One raw dependency declaration as `ResolvedPackage::new` reads it:
its kind and its optional target-platform restriction. -/
structure RawDependency where
  kind : DependencyKind
  platform : Option Platform
deriving DecidableEq

/-- The inputs `ResolvedPackage::new` reads for one package: the groups
`resolve.deps(pkg)` (per target id, the raw declarations), the feature set
`resolve.features(pkg)`, whether the target package has a library target
(`dep_pkg.targets().iter().find(|t| t.is_lib())`), and the result of
`resolve.extern_crate_name` for that target. -/
structure NewInput where
  deps : List (PackageId × List RawDependency)
  features : List Feature
  hasLibTarget : PackageId → Bool
  crateNameOf : PackageId → Option String

/-- The platform-merge `match` of `ResolvedPackage::new`: a restricted
declaration adds its platform, an unrestricted one clears the set for
good. -/
def platformMerge (p : Option Platform) (d : ResolvedDependency) : ResolvedDependency :=
  match p, d.platforms with
  | some plat, some ps => { d with platforms := some (ps ++ [plat]) }
  | none, _ => { d with platforms := none }
  | some _, none => d

/-- `deps.entry(key).or_insert(init)` followed by an in-place update. -/
def upsertDep (key : DepKey) (init : ResolvedDependency)
    (step : ResolvedDependency → ResolvedDependency) :
    List (DepKey × ResolvedDependency) → List (DepKey × ResolvedDependency)
  | [] => [(key, step init)]
  | (k, d) :: rest =>
      if k = key then (k, step d) :: rest
      else (k, d) :: upsertDep key init step rest

/-- `ResolvedPackage::new` (the edge and feature construction; the checksum
is external provenance data never touched by the optionality pipeline): each
dependency group is dropped wholesale when its target has no library target
or no extern crate name; the surviving raw declarations are merged into
edges keyed `(target id, kind)`. -/
def ResolvedPackage.new (inp : NewInput) : ResolvedPackage :=
  { deps := ((inp.deps.filterMap (fun grp =>
      if inp.hasLibTarget grp.1 then
        match inp.crateNameOf grp.1 with
        | some en => some (grp.2.map (fun raw => (grp.1, raw, en)))
        | none => none
      else none)).flatten).foldl
      (fun m x =>
        upsertDep (x.1, x.2.1.kind)
          { crate_name := x.2.2, optionality := Optionality.default,
            platforms := some [] }
          (platformMerge x.2.1.platform) m) []
    features := inp.features.map (fun f => (f, Optionality.default)) }

/-! ### Concrete instances -/
abbrev exEntry : ResolutionEntry := ⟨7, ["std"], [9]⟩

abbrev exInputs : GatewayInputs := ⟨fun _ => [exEntry], fun _ _ => [exEntry]⟩

abbrev exRPTracker : ResolvedPackage :=
  ⟨[((9, DependencyKind.Normal), ⟨"dep", Optionality.default, none⟩)],
    [("std", Optionality.default)]⟩

abbrev exStateTracker : TrackerState := [(7, exRPTracker)]

abbrev exRootsA : List (PackageName × List Feature) := [("a", ["x", "y"]), ("b", ["z"])]

abbrev exRootsMid : List (PackageName × List Feature) := [("a", ["y", "x"]), ("b", ["z"])]

abbrev exRootsB : List (PackageName × List Feature) := [("b", ["z"]), ("a", ["y", "x"])]

abbrev exDepC3 : ResolvedDependency :=
  ⟨"dep", Optionality.Optional {"a", "b"} ∅, none⟩

abbrev exRPC3 : ResolvedPackage :=
  ⟨[((5, DependencyKind.Normal), exDepC3)], [("feat", Optionality.Optional {"a", "b"} ∅)]⟩

abbrev exRPC4 : ResolvedPackage :=
  ⟨[((9, DependencyKind.Development), ⟨"dev", Optionality.Optional ∅ ∅, none⟩)], []⟩

abbrev exRPC5 : ResolvedPackage :=
  ⟨[], [("f", Optionality.Optional {"a"} ∅), ("g", Optionality.Optional {"a"} ∅)]⟩

abbrev exResC7 : Resolution := [⟨7, ["std"], []⟩]

abbrev exRPC8 : ResolvedPackage :=
  ⟨[((9, DependencyKind.Development), ⟨"dev", Optionality.default, none⟩)], []⟩

abbrev exStateC8 : TrackerState := [(7, exRPC8)]

abbrev exResC8 : Resolution := [⟨7, [], [9]⟩]

abbrev exHasLib : PackageId → Bool := fun pid => !(pid == 5)

abbrev exCrateName : PackageId → Option String := fun _ => some "c"

abbrev exRawsC9 : List RawDependency := [⟨DependencyKind.Normal, none⟩]

abbrev exDepC10 : ResolvedDependency := ⟨"dep", Optionality.Required, none⟩

abbrev exRPC10 : ResolvedPackage :=
  ⟨[((4, DependencyKind.Normal), exDepC10)], [("f", Optionality.Optional ∅ ∅)]⟩

/-! ### Theorems -/

/-! ### Helper lemmas about the simplifier -/
theorem map_fix {α : Type _} {f : α → α} {l : List α} (h : ∀ x ∈ l, f x = x) :
    l.map f = l := by
  induction l with
  | nil => rfl
  | cons x xs ih =>
      simp only [List.map_cons]
      rw [h x (List.mem_cons_self x xs), ih fun y hy => h y (List.mem_cons_of_mem _ hy)]

theorem promote_idem (n : Nat) (o : Optionality) :
    Optionality.promote n (Optionality.promote n o) = Optionality.promote n o := by
  cases o with
  | Required => rfl
  | Optional r a =>
      by_cases h : r.card = n <;> simp [Optionality.promote, h]

theorem depPromote_key (n : Nat) (kd : DepKey × ResolvedDependency) :
    (depPromote n kd).1 = kd.1 := by
  unfold depPromote; split <;> rfl

theorem depForce_key (kd : DepKey × ResolvedDependency) :
    (depForce kd).1 = kd.1 := by
  unfold depForce; split <;> rfl

theorem depCollapse_key (kd : DepKey × ResolvedDependency) :
    (depCollapse kd).1 = kd.1 := by
  unfold depCollapse; split <;> rfl

/-- An entry that has just gone through rules 1 and 2 is left unchanged by a
second application of either rule. -/
theorem dep_rule12_stable (n : Nat) (kd : DepKey × ResolvedDependency) :
    depPromote n (depForce (depPromote n kd)) = depForce (depPromote n kd) ∧
    depForce (depForce (depPromote n kd)) = depForce (depPromote n kd) := by
  obtain ⟨⟨id, kind⟩, d⟩ := kd
  by_cases h : kind = DependencyKind.Development
  · subst h
    cases d
    simp [depPromote, depForce]
  · cases d
    simp [depPromote, depForce, h, promote_idem]

/-- A collapsed (all-`Required`) entry is unchanged by every per-entry rule. -/
theorem dep_required_stable (n : Nat) (kd : DepKey × ResolvedDependency)
    (h : kd.2.optionality = Optionality.Required) :
    depPromote n kd = kd ∧ depForce kd = kd ∧ depCollapse kd = kd := by
  obtain ⟨⟨id, kind⟩, d⟩ := kd
  cases d
  cases h
  constructor
  · simp [depPromote, Optionality.promote]
  constructor
  · simp [depForce]
  · simp [depCollapse]

theorem all_eq_of_const {α : Type _} [DecidableEq α] {l : List α} {c : α}
    (h : ∀ x ∈ l, x = c) : all_eq l = true := by
  cases l with
  | nil => rfl
  | cons x xs =>
      simp only [all_eq, List.all_eq_true]
      intro y hy
      rw [h y (List.mem_cons_of_mem _ hy), h x (List.mem_cons_self x xs)]
      simp

theorem rule12_deps (n : Nat) (rp : ResolvedPackage) :
    (rule12 n rp).deps = rp.deps.map (fun kd => depForce (depPromote n kd)) := by
  simp [rule12, ResolvedPackage.applyRule1, ResolvedPackage.applyRule2, List.map_map]

theorem rule12_features (n : Nat) (rp : ResolvedPackage) :
    (rule12 n rp).features = rp.features.map (fun fo => (fo.1, Optionality.promote n fo.2)) :=
  rfl

/-- Rules 1 and 2 are stable: reapplying either to a post-rule-1-2 package
changes nothing. -/
theorem rule12_applyRule1 (n : Nat) (rp : ResolvedPackage) :
    (rule12 n rp).applyRule1 n = rule12 n rp := by
  unfold ResolvedPackage.applyRule1
  ext1
  · show (rule12 n rp).deps.map (depPromote n) = (rule12 n rp).deps
    apply map_fix
    intro kd hkd
    rw [rule12_deps] at hkd
    obtain ⟨kd0, _, rfl⟩ := List.mem_map.1 hkd
    exact (dep_rule12_stable n kd0).1
  · show (rule12 n rp).features.map (fun fo => (fo.1, Optionality.promote n fo.2))
        = (rule12 n rp).features
    apply map_fix
    intro fo hfo
    rw [rule12_features] at hfo
    obtain ⟨fo0, _, rfl⟩ := List.mem_map.1 hfo
    simp [promote_idem]

theorem rule12_applyRule2 (n : Nat) (rp : ResolvedPackage) :
    (rule12 n rp).applyRule2 = rule12 n rp := by
  unfold ResolvedPackage.applyRule2
  ext1
  · show (rule12 n rp).deps.map depForce = (rule12 n rp).deps
    apply map_fix
    intro kd hkd
    rw [rule12_deps] at hkd
    obtain ⟨kd0, _, rfl⟩ := List.mem_map.1 hkd
    exact (dep_rule12_stable n kd0).2
  · rfl

theorem applyRule3_pos {rp : ResolvedPackage} (h : all_eq rp.optionalities = true) :
    rp.applyRule3 = collapseAll rp := by
  simp [ResolvedPackage.applyRule3, collapseAll, h]

theorem applyRule3_neg {rp : ResolvedPackage} (h : all_eq rp.optionalities = false) :
    rp.applyRule3 = rp := by
  simp [ResolvedPackage.applyRule3, h]

/-- After the collapse branch of rule 3, everything `iter_optionality_mut`
yields is `Required`. -/
theorem collapseAll_optionalities (rp : ResolvedPackage) :
    ∀ o ∈ (collapseAll rp).optionalities, o = Optionality.Required := by
  intro o ho
  simp only [collapseAll, ResolvedPackage.optionalities, List.mem_append] at ho
  rcases ho with ho | ho
  · obtain ⟨kd, hkd, rfl⟩ := List.mem_map.1 ho
    obtain ⟨hkd1, hkd2⟩ := List.mem_filter.1 hkd
    obtain ⟨kd0, _, rfl⟩ := List.mem_map.1 hkd1
    obtain ⟨⟨id, kind⟩, d⟩ := kd0
    have hkind : kind ≠ DependencyKind.Development := by
      simpa [depCollapse_key] using hkd2
    simp [depCollapse, hkind]
  · obtain ⟨fo, hfo, rfl⟩ := List.mem_map.1 ho
    obtain ⟨fo0, _, rfl⟩ := List.mem_map.1 hfo
    rfl

/-- A dependency entry produced by one full pass of the simplifier is
unchanged by every per-entry rule of a second pass. -/
theorem dep_pass_stable (n : Nat) (kd : DepKey × ResolvedDependency) :
    depPromote n (depCollapse (depForce (depPromote n kd)))
        = depCollapse (depForce (depPromote n kd)) ∧
    depForce (depCollapse (depForce (depPromote n kd)))
        = depCollapse (depForce (depPromote n kd)) ∧
    depCollapse (depCollapse (depForce (depPromote n kd)))
        = depCollapse (depForce (depPromote n kd)) := by
  obtain ⟨⟨id, kind⟩, d⟩ := kd
  by_cases h : kind = DependencyKind.Development
  · subst h
    cases d
    simp [depPromote, depForce, depCollapse]
  · cases d
    simp [depPromote, depForce, depCollapse, h, Optionality.promote]

theorem simplify_one_idem (n : Nat) (rp : ResolvedPackage) :
    simplify_one n (simplify_one n rp) = simplify_one n rp := by
  show ((((rule12 n rp).applyRule3).applyRule1 n).applyRule2).applyRule3
      = (rule12 n rp).applyRule3
  by_cases h : all_eq (rule12 n rp).optionalities = true
  · rw [applyRule3_pos h]
    have hdeps : (collapseAll (rule12 n rp)).deps
        = rp.deps.map (fun kd => depCollapse (depForce (depPromote n kd))) := by
      simp [collapseAll, rule12_deps, List.map_map]
    have hfeats : (collapseAll (rule12 n rp)).features
        = rp.features.map (fun fo => (fo.1, Optionality.Required)) := by
      simp [collapseAll, rule12_features, List.map_map]
    have h1 : (collapseAll (rule12 n rp)).applyRule1 n = collapseAll (rule12 n rp) := by
      unfold ResolvedPackage.applyRule1
      ext1
      · show (collapseAll (rule12 n rp)).deps.map (depPromote n)
            = (collapseAll (rule12 n rp)).deps
        apply map_fix
        intro kd hkd
        rw [hdeps] at hkd
        obtain ⟨kd0, _, rfl⟩ := List.mem_map.1 hkd
        exact (dep_pass_stable n kd0).1
      · show (collapseAll (rule12 n rp)).features.map
              (fun fo => (fo.1, Optionality.promote n fo.2))
            = (collapseAll (rule12 n rp)).features
        apply map_fix
        intro fo hfo
        rw [hfeats] at hfo
        obtain ⟨fo0, _, rfl⟩ := List.mem_map.1 hfo
        simp [Optionality.promote]
    have h2 : (collapseAll (rule12 n rp)).applyRule2 = collapseAll (rule12 n rp) := by
      unfold ResolvedPackage.applyRule2
      ext1
      · show (collapseAll (rule12 n rp)).deps.map depForce
            = (collapseAll (rule12 n rp)).deps
        apply map_fix
        intro kd hkd
        rw [hdeps] at hkd
        obtain ⟨kd0, _, rfl⟩ := List.mem_map.1 hkd
        exact (dep_pass_stable n kd0).2.1
      · rfl
    rw [h1, h2]
    have hall : all_eq (collapseAll (rule12 n rp)).optionalities = true :=
      all_eq_of_const (collapseAll_optionalities _)
    rw [applyRule3_pos hall]
    ext1
    · show (collapseAll (rule12 n rp)).deps.map depCollapse
          = (collapseAll (rule12 n rp)).deps
      apply map_fix
      intro kd hkd
      rw [hdeps] at hkd
      obtain ⟨kd0, _, rfl⟩ := List.mem_map.1 hkd
      exact (dep_pass_stable n kd0).2.2
    · show (collapseAll (rule12 n rp)).features.map (fun fo => (fo.1, Optionality.Required))
          = (collapseAll (rule12 n rp)).features
      apply map_fix
      intro fo hfo
      rw [hfeats] at hfo
      obtain ⟨fo0, _, rfl⟩ := List.mem_map.1 hfo
      rfl
  · have h' : all_eq (rule12 n rp).optionalities = false := by
      simpa using h
    rw [applyRule3_neg h', rule12_applyRule1, rule12_applyRule2, applyRule3_neg h']

/-- The optionality of one dependency entry after rules 1 and 2. -/
theorem rule12_entry_opt (n : Nat) (k : DepKey) (d : ResolvedDependency) :
    (depForce (depPromote n (k, d))).2.optionality =
      if k.2 = DependencyKind.Development then Optionality.Required
      else Optionality.promote n d.optionality := by
  obtain ⟨id, kind⟩ := k
  by_cases h : kind = DependencyKind.Development <;> cases d <;>
    simp [depPromote, depForce, h]

theorem rule12_entry_key (n : Nat) (kd : DepKey × ResolvedDependency) :
    (depForce (depPromote n kd)).1 = kd.1 := by
  rw [depForce_key, depPromote_key]

/-- A dependency entry that rules 1 and 2 turn `Required` is `Required` in the
final simplifier output, at the same position and under the same key. -/
theorem simplify_one_dep_required (n : Nat) (rp : ResolvedPackage) (i : Nat)
    (k : DepKey) (d : ResolvedDependency) (h : rp.deps[i]? = some (k, d))
    (hreq : (depForce (depPromote n (k, d))).2.optionality = Optionality.Required) :
    ∃ d', (simplify_one n rp).deps[i]? = some (k, d')
      ∧ d'.optionality = Optionality.Required := by
  have hq : (rule12 n rp).deps[i]? = some (depForce (depPromote n (k, d))) := by
    rw [rule12_deps, List.getElem?_map, h, Option.map_some']
  show ∃ d', ((rule12 n rp).applyRule3).deps[i]? = some (k, d') ∧ _
  by_cases hall : all_eq (rule12 n rp).optionalities = true
  · rw [applyRule3_pos hall]
    refine ⟨(depCollapse (depForce (depPromote n (k, d)))).2, ?_, ?_⟩
    · show (collapseAll (rule12 n rp)).deps[i]? = _
      have : (collapseAll (rule12 n rp)).deps[i]?
          = some (depCollapse (depForce (depPromote n (k, d)))) := by
        simp [collapseAll, List.getElem?_map, hq]
      rw [this]
      have hk : (depCollapse (depForce (depPromote n (k, d)))).1 = k := by
        rw [depCollapse_key, rule12_entry_key]
      conv_lhs => rw [show depCollapse (depForce (depPromote n (k, d)))
        = ((depCollapse (depForce (depPromote n (k, d)))).1,
           (depCollapse (depForce (depPromote n (k, d)))).2) from rfl]
      rw [hk]
    · obtain ⟨id, kind⟩ := k
      by_cases hdev : kind = DependencyKind.Development
      · subst hdev
        cases d
        simp_all [depPromote, depForce, depCollapse]
      · cases d
        simp_all [depPromote, depForce, depCollapse]
  · rw [applyRule3_neg (by simpa using hall)]
    refine ⟨(depForce (depPromote n (k, d))).2, ?_, hreq⟩
    rw [hq]
    conv_lhs => rw [show depForce (depPromote n (k, d))
      = ((depForce (depPromote n (k, d))).1, (depForce (depPromote n (k, d))).2) from rfl]
    rw [rule12_entry_key]

/-- A feature whose optionality rule 1 turns `Required` is `Required` in the
final simplifier output, at the same position and under the same name. -/
theorem simplify_one_feat_required (n : Nat) (rp : ResolvedPackage) (j : Nat)
    (f : Feature) (o : Optionality) (h : rp.features[j]? = some (f, o))
    (hreq : Optionality.promote n o = Optionality.Required) :
    (simplify_one n rp).features[j]? = some (f, Optionality.Required) := by
  have hq : (rule12 n rp).features[j]? = some (f, Optionality.Required) := by
    rw [rule12_features, List.getElem?_map, h, Option.map_some']
    simp [hreq]
  show ((rule12 n rp).applyRule3).features[j]? = _
  by_cases hall : all_eq (rule12 n rp).optionalities = true
  · rw [applyRule3_pos hall]
    simp [collapseAll, List.getElem?_map, hq]
  · rw [applyRule3_neg (by simpa using hall)]
    exact hq

/-- C2: Idempotence of simplification: for every map of `ResolvedPackage`
states and every root-package count `n`, applying `simplify_optionality`
twice in sequence produces exactly the same state as applying it once. -/
theorem claim_C2_simplify_idempotent (rpkgs : List ResolvedPackage) (n : Nat) :
    simplify_optionality (simplify_optionality rpkgs n) n
      = simplify_optionality rpkgs n := by
  unfold simplify_optionality
  rw [List.map_map]
  exact List.map_congr_left fun rp _ => simplify_one_idem n rp

/-- C3: Universal-requirement promotion: after simplification, every feature
and every dependency edge whose `Optional` `required_by_pkgs` set has size
equal to the total number of root packages has its `Optionality` replaced by
`Required`. -/
theorem claim_C3_universal_promotion (n : Nat) (rp : ResolvedPackage) :
    (∀ (i : Nat) (k : DepKey) (d : ResolvedDependency) (r : Finset PackageName)
        (a : Finset RootFeature), rp.deps[i]? = some (k, d)
      → d.optionality = Optionality.Optional r a → r.card = n
      → ∃ d', (simplify_one n rp).deps[i]? = some (k, d')
          ∧ d'.optionality = Optionality.Required)
    ∧ (∀ (j : Nat) (f : Feature) (r : Finset PackageName) (a : Finset RootFeature),
        rp.features[j]? = some (f, Optionality.Optional r a) → r.card = n
      → (simplify_one n rp).features[j]? = some (f, Optionality.Required)) := by
  constructor
  · intro i k d r a h hopt hcard
    apply simplify_one_dep_required n rp i k d h
    rw [rule12_entry_opt]
    by_cases hdev : k.2 = DependencyKind.Development
    · simp [hdev]
    · simp [hdev, hopt, Optionality.promote, hcard]
  · intro j f r a h hcard
    apply simplify_one_feat_required n rp j f (Optionality.Optional r a) h
    simp [Optionality.promote, hcard]

/-- C4: Development-kind forcing: after the simplifier runs, every dependency
edge of kind `Development` has `Optionality` equal to `Required`, regardless
of its accumulated sets. -/
theorem claim_C4_development_forced (n : Nat) (rp : ResolvedPackage) :
    ∀ kd ∈ (simplify_one n rp).deps, kd.1.2 = DependencyKind.Development
      → kd.2.optionality = Optionality.Required := by
  intro kd hkd hdev
  show kd.2.optionality = Optionality.Required
  by_cases hall : all_eq (rule12 n rp).optionalities = true
  · rw [show simplify_one n rp = collapseAll (rule12 n rp) from applyRule3_pos hall]
      at hkd
    simp only [collapseAll, rule12_deps, List.map_map, List.mem_map,
      Function.comp] at hkd
    obtain ⟨kd0, _, rfl⟩ := hkd
    obtain ⟨⟨id, kind⟩, d⟩ := kd0
    have hkind : kind = DependencyKind.Development := by
      simpa [depCollapse_key, rule12_entry_key] using hdev
    subst hkind
    cases d
    simp [depPromote, depForce, depCollapse]
  · rw [show simplify_one n rp = rule12 n rp from applyRule3_neg (by simpa using hall)]
      at hkd
    rw [rule12_deps] at hkd
    obtain ⟨kd0, _, rfl⟩ := List.mem_map.1 hkd
    obtain ⟨⟨id, kind⟩, d⟩ := kd0
    have hkind : kind = DependencyKind.Development := by
      simpa [rule12_entry_key] using hdev
    subst hkind
    cases d
    simp [depPromote, depForce]

/-- C5: Homogeneous-package collapse: if after rules 1 and 2 all of a
package's own features' and own non-development edges' `Optionality` values
are pairwise equal, the simplifier replaces all of them with `Required`;
and each package of the map is simplified independently, so edges of other
packages are unaffected by this package's collapse. -/
theorem claim_C5_homogeneous_collapse :
    (∀ (n : Nat) (rp : ResolvedPackage),
        all_eq (rule12 n rp).optionalities = true
        → ∀ o ∈ (simplify_one n rp).optionalities, o = Optionality.Required)
    ∧ (∀ (rpkgs : List ResolvedPackage) (n i : Nat),
        (simplify_optionality rpkgs n)[i]? = rpkgs[i]?.map (simplify_one n)) := by
  constructor
  · intro n rp hall o ho
    rw [show simplify_one n rp = collapseAll (rule12 n rp) from applyRule3_pos hall]
      at ho
    exact collapseAll_optionalities _ o ho
  · intro rpkgs n i
    simp [simplify_optionality, List.getElem?_map]

/-- C10: `Required` is absorbing: `required_by`, `activated_by` and every
rule of the simplifier leave a `Required` optionality exactly `Required`. -/
theorem claim_C10_required_absorbing :
    (∀ p, Optionality.Required.required_by p = Optionality.Required)
    ∧ (∀ rf, Optionality.Required.activated_by rf = Optionality.Required)
    ∧ (∀ n, Optionality.promote n Optionality.Required = Optionality.Required)
    ∧ (∀ (n : Nat) (rp : ResolvedPackage) (i : Nat) (k : DepKey)
          (d : ResolvedDependency), rp.deps[i]? = some (k, d)
        → d.optionality = Optionality.Required
        → ∃ d', (simplify_one n rp).deps[i]? = some (k, d')
            ∧ d'.optionality = Optionality.Required)
    ∧ (∀ (n : Nat) (rp : ResolvedPackage) (j : Nat) (f : Feature),
        rp.features[j]? = some (f, Optionality.Required)
        → (simplify_one n rp).features[j]? = some (f, Optionality.Required)) := by
  refine ⟨fun p => rfl, fun rf => rfl, fun n => rfl, ?_, ?_⟩
  · intro n rp i k d h hopt
    apply simplify_one_dep_required n rp i k d h
    rw [rule12_entry_opt]
    by_cases hdev : k.2 = DependencyKind.Development <;>
      simp [hdev, hopt, Optionality.promote]
  · intro n rp j f h
    exact simplify_one_feat_required n rp j f Optionality.Required h rfl

theorem CommF.symm' {α : Type _} {f g : α → α} (h : CommF f g) : CommF g f :=
  fun x => (h x).symm

theorem commF_comp_right {α : Type _} {A : α → α} (F G : α → α)
    (h1 : CommF A F) (h2 : CommF A G) : CommF A (fun x => F (G x)) := by
  intro x
  show A (F (G x)) = F (G (A x))
  rw [h1 (G x), h2 x]

theorem commF_foldl {α β : Type _} {F : α → α} {step : α → β → α}
    (h : ∀ b, CommF F (fun st => step st b)) (l : List β) :
    CommF F (fun st => l.foldl step st) := by
  induction l with
  | nil => intro st; rfl
  | cons b bs ih =>
      intro st
      show F ((b :: bs).foldl step st) = (b :: bs).foldl step (F st)
      simp only [List.foldl_cons]
      rw [ih (step st b), h b st]

theorem required_by_comm (o : Optionality) (p q : PackageName) :
    (o.required_by p).required_by q = (o.required_by q).required_by p := by
  cases o <;> simp [Optionality.required_by, Finset.Insert.comm]

theorem activated_by_comm (o : Optionality) (x y : RootFeature) :
    (o.activated_by x).activated_by y = (o.activated_by y).activated_by x := by
  cases o with
  | Required => rfl
  | Optional r a =>
      by_cases hx : x.1 ∈ r <;> by_cases hy : y.1 ∈ r <;>
        simp [Optionality.activated_by, hx, hy, Finset.Insert.comm]

theorem required_activated_comm (o : Optionality) (p : PackageName)
    (x : RootFeature) (h : p ≠ x.1) :
    (o.required_by p).activated_by x = (o.activated_by x).required_by p := by
  cases o with
  | Required => rfl
  | Optional r a =>
      have hx : x.1 ≠ p := Ne.symm h
      by_cases hmem : x.1 ∈ r <;>
        simp [Optionality.required_by, Optionality.activated_by, Finset.mem_insert,
          hx, hmem]

theorem required_by_idem (o : Optionality) (p : PackageName) :
    (o.required_by p).required_by p = o.required_by p := by
  cases o <;> simp [Optionality.required_by, Finset.insert_idem]

theorem activated_by_idem (o : Optionality) (x : RootFeature) :
    (o.activated_by x).activated_by x = o.activated_by x := by
  cases o with
  | Required => rfl
  | Optional r a =>
      by_cases hx : x.1 ∈ r <;>
        simp [Optionality.activated_by, hx, Finset.insert_idem]

theorem map_comm_of_pointwise {α : Type _} {s t : α → α}
    (h : ∀ x, s (t x) = t (s x)) (l : List α) :
    (l.map t).map s = (l.map s).map t := by
  rw [List.map_map, List.map_map]
  exact List.map_congr_left fun x _ => h x

theorem updFeature_updFeature_comm {g g' : Optionality → Optionality}
    (hg : ∀ o, g (g' o) = g' (g o)) (rp : ResolvedPackage) (f f' : Feature) :
    (rp.updFeature f' g').updFeature f g = (rp.updFeature f g).updFeature f' g' := by
  cases rp
  simp only [ResolvedPackage.updFeature]
  congr 1
  apply map_comm_of_pointwise
  intro fo
  by_cases h1 : (fo.1 == f) = true <;> by_cases h2 : (fo.1 == f') = true <;>
    simp [condMap, h1, h2, hg]

theorem updDeps_updDeps_comm {g g' : Optionality → Optionality}
    (hg : ∀ o, g (g' o) = g' (g o)) (rp : ResolvedPackage) (d d' : PackageId) :
    (rp.updDepsWithId d' g').updDepsWithId d g
      = (rp.updDepsWithId d g).updDepsWithId d' g' := by
  cases rp
  simp only [ResolvedPackage.updDepsWithId]
  congr 1
  apply map_comm_of_pointwise
  intro kd
  obtain ⟨k, c, o, pl⟩ := kd
  by_cases h1 : inKeyRange d k = true <;> by_cases h2 : inKeyRange d' k = true <;>
    simp [condMap, h1, h2, hg]

theorem updFeature_updDeps_comm (g g' : Optionality → Optionality)
    (rp : ResolvedPackage) (f : Feature) (id : PackageId) :
    (rp.updDepsWithId id g').updFeature f g = (rp.updFeature f g).updDepsWithId id g' := by
  cases rp
  rfl

theorem commF_atomic_applyEntryPkg {g g' : Optionality → Optionality}
    (hg : ∀ o, g (g' o) = g' (g o)) (e' : ResolutionEntry) :
    (∀ f, CommF (fun rp => ResolvedPackage.updFeature rp f g) (applyEntryPkg g' e'))
    ∧ (∀ d, CommF (fun rp => ResolvedPackage.updDepsWithId rp d g) (applyEntryPkg g' e')) := by
  constructor
  · intro f
    have hfeat : ∀ f', CommF (fun rp => ResolvedPackage.updFeature rp f g)
        (fun rp => ResolvedPackage.updFeature rp f' g') :=
      fun f' rp => updFeature_updFeature_comm hg rp f f'
    have hdep : ∀ d', CommF (fun rp => ResolvedPackage.updFeature rp f g)
        (fun rp => ResolvedPackage.updDepsWithId rp d' g') :=
      fun d' rp => updFeature_updDeps_comm g g' rp f d'
    exact commF_comp_right
      (fun rp => e'.depIds.foldl (fun rp d => rp.updDepsWithId d g') rp)
      (fun rp => e'.feats.foldl (fun rp f => rp.updFeature f g') rp)
      (commF_foldl hdep e'.depIds) (commF_foldl hfeat e'.feats)
  · intro d
    have hfeat : ∀ f', CommF (fun rp => ResolvedPackage.updDepsWithId rp d g)
        (fun rp => ResolvedPackage.updFeature rp f' g') :=
      fun f' rp => (updFeature_updDeps_comm g' g rp f' d).symm
    have hdep : ∀ d', CommF (fun rp => ResolvedPackage.updDepsWithId rp d g)
        (fun rp => ResolvedPackage.updDepsWithId rp d' g') :=
      fun d' rp => updDeps_updDeps_comm hg rp d d'
    exact commF_comp_right
      (fun rp => e'.depIds.foldl (fun rp d => rp.updDepsWithId d g') rp)
      (fun rp => e'.feats.foldl (fun rp f => rp.updFeature f g') rp)
      (commF_foldl hdep e'.depIds) (commF_foldl hfeat e'.feats)

theorem commF_applyEntryPkg {g g' : Optionality → Optionality}
    (hg : ∀ o, g (g' o) = g' (g o)) (e e' : ResolutionEntry) :
    CommF (applyEntryPkg g e) (applyEntryPkg g' e') := by
  obtain ⟨hf, hd⟩ := commF_atomic_applyEntryPkg hg e'
  have step := commF_comp_right
    (fun st => e.depIds.foldl (fun acc d => acc.updDepsWithId d g) st)
    (fun st => e.feats.foldl (fun acc f => acc.updFeature f g) st)
    (commF_foldl (fun d => (hd d).symm') e.depIds)
    (commF_foldl (fun f => (hf f).symm') e.feats)
  exact step.symm'

theorem commF_updatePkg {F F' : ResolvedPackage → ResolvedPackage}
    (hF : CommF F F') (id id' : PackageId) :
    CommF (updatePkg id F) (updatePkg id' F') := by
  intro st
  unfold updatePkg
  apply map_comm_of_pointwise
  intro pr
  obtain ⟨k, rp⟩ := pr
  by_cases h1 : (k == id) = true <;> by_cases h2 : (k == id') = true <;>
    simp [condMap, h1, h2, hF rp]

theorem commF_processResolution {g g' : Optionality → Optionality}
    (hg : ∀ o, g (g' o) = g' (g o)) (res res' : Resolution) :
    CommF (processResolution g res) (processResolution g' res') := by
  have h1 : ∀ e, CommF (updatePkg e.id (applyEntryPkg g e)) (processResolution g' res') :=
    fun e => commF_foldl
      (fun e' => commF_updatePkg (commF_applyEntryPkg hg e e') e.id e'.id) res'
  exact (commF_foldl (fun e => (h1 e).symm') res).symm'

theorem commF_processRootPkg (inputs : GatewayInputs)
    {r r' : PackageName × List Feature} (h : r.1 ≠ r'.1) :
    CommF (processRootPkg inputs r) (processRootPkg inputs r') := by
  have hmm : CommF (mark_required r.1 (inputs.baseline r.1))
      (mark_required r'.1 (inputs.baseline r'.1)) :=
    commF_processResolution (fun o => required_by_comm o r'.1 r.1) _ _
  have hma : ∀ f', CommF (mark_required r.1 (inputs.baseline r.1))
      (fun st => activate r'.1 f' (inputs.perFeature r'.1 f') st) :=
    fun f' => commF_processResolution
      (fun o => (required_activated_comm o r.1 (r'.1, f') h).symm) _ _
  have ham : ∀ f, CommF (fun st => activate r.1 f (inputs.perFeature r.1 f) st)
      (mark_required r'.1 (inputs.baseline r'.1)) :=
    fun f => commF_processResolution
      (fun o => required_activated_comm o r'.1 (r.1, f) (Ne.symm h)) _ _
  have haa : ∀ f f', CommF (fun st => activate r.1 f (inputs.perFeature r.1 f) st)
      (fun st => activate r'.1 f' (inputs.perFeature r'.1 f') st) :=
    fun f f' => commF_processResolution
      (fun o => activated_by_comm o (r'.1, f') (r.1, f)) _ _
  have h1 : CommF (mark_required r.1 (inputs.baseline r.1)) (processRootPkg inputs r') :=
    commF_comp_right
      (fun st => r'.2.foldl (fun st f => activate r'.1 f (inputs.perFeature r'.1 f) st) st)
      (fun st => mark_required r'.1 (inputs.baseline r'.1) st)
      (commF_foldl hma r'.2) hmm
  have h2 : ∀ f, CommF (fun st => activate r.1 f (inputs.perFeature r.1 f) st)
      (processRootPkg inputs r') :=
    fun f => commF_comp_right
      (fun st => r'.2.foldl (fun st f => activate r'.1 f (inputs.perFeature r'.1 f) st) st)
      (fun st => mark_required r'.1 (inputs.baseline r'.1) st)
      (commF_foldl (haa f) r'.2) (ham f)
  exact (commF_comp_right
    (fun st => r.2.foldl (fun st f => activate r.1 f (inputs.perFeature r.1 f) st) st)
    (fun st => mark_required r.1 (inputs.baseline r.1) st)
    (commF_foldl (fun f => (h2 f).symm') r.2) h1.symm').symm'

/-- Permuting the root features of one root package does not change the
outcome of its tracker passes. -/
theorem processRootPkg_congr (inputs : GatewayInputs)
    {a b : PackageName × List Feature} (hname : a.1 = b.1) (hfeats : a.2.Perm b.2)
    (st : TrackerState) :
    processRootPkg inputs a st = processRootPkg inputs b st := by
  obtain ⟨p, fs⟩ := a
  obtain ⟨q, gs⟩ := b
  cases hname
  unfold processRootPkg
  dsimp only
  refine hfeats.foldl_eq' ?_ _
  intro x _ y _ z
  exact commF_processResolution
    (fun o => activated_by_comm o (p, x) (p, y)) _ _ z

theorem forall₂_fst_eq {l₁ l₂ : List (PackageName × List Feature)}
    (h : List.Forall₂ (fun a b => a.1 = b.1 ∧ a.2.Perm b.2) l₁ l₂) :
    l₁.map Prod.fst = l₂.map Prod.fst := by
  induction h with
  | nil => rfl
  | cons hab _ ih => simp [hab.1, ih]

theorem runTracker_congr_features (inputs : GatewayInputs)
    {l₁ l₂ : List (PackageName × List Feature)}
    (h : List.Forall₂ (fun a b => a.1 = b.1 ∧ a.2.Perm b.2) l₁ l₂)
    (st : TrackerState) :
    runTracker inputs l₁ st = runTracker inputs l₂ st := by
  induction h generalizing st with
  | nil => rfl
  | @cons a b t₁ t₂ hab _ ih =>
      show runTracker inputs t₁ (processRootPkg inputs a st)
        = runTracker inputs t₂ (processRootPkg inputs b st)
      rw [processRootPkg_congr inputs hab.1 hab.2 st]
      exact ih _

theorem runTracker_perm (inputs : GatewayInputs)
    {l₁ l₂ : List (PackageName × List Feature)} (hperm : l₁.Perm l₂)
    (hnd : (l₁.map Prod.fst).Nodup) (st : TrackerState) :
    runTracker inputs l₁ st = runTracker inputs l₂ st := by
  refine hperm.foldl_eq' ?_ st
  intro x hx y hy z
  by_cases hxy : x = y
  · subst hxy; rfl
  · have hne : x.1 ≠ y.1 := fun he => hxy (List.inj_on_of_nodup_map hnd hx hy he)
    exact commF_processRootPkg inputs (Ne.symm hne) z

/-- C1: Order-independence of accumulation: for a fixed set of Gateway
resolutions, processing the root packages, and the root features within each
root package, in any order yields the same final tracker state, hence
identical `Optionality` values for every feature and dependency edge.
`roots₂` is `roots₁` with each root's feature list permuted (through `mid`)
and the roots themselves permuted; root-package names are distinct. -/
theorem claim_C1_order_independence (inputs : GatewayInputs) (st : TrackerState)
    (roots₁ mid roots₂ : List (PackageName × List Feature))
    (hfeat : List.Forall₂ (fun a b => a.1 = b.1 ∧ a.2.Perm b.2) roots₁ mid)
    (hperm : mid.Perm roots₂)
    (hnd : (roots₁.map Prod.fst).Nodup) :
    runTracker inputs roots₁ st = runTracker inputs roots₂ st := by
  have hmap : roots₁.map Prod.fst = mid.map Prod.fst := forall₂_fst_eq hfeat
  have hmidnd : (mid.map Prod.fst).Nodup := hmap ▸ hnd
  rw [runTracker_congr_features inputs hfeat st]
  exact runTracker_perm inputs hperm hmidnd st

/-! ### What one pass writes to one item -/
theorem toNat_le_two (d : DependencyKind) : d.toNat ≤ 2 := by
  cases d <;> simp [DependencyKind.toNat]

theorem toNat_Normal : DependencyKind.Normal.toNat = 0 := rfl

theorem toNat_Build : DependencyKind.Build.toNat = 2 := rfl

/-- The key range `(id, Normal)..=(id, Build)` of `iter_deps_with_id_mut`
contains exactly the keys whose package-identity component is `id` — every
`DependencyKind` lies between `Normal` and `Build` in cargo's derived `Ord`. -/
theorem inKeyRange_iff (id : PackageId) (k : DepKey) :
    inKeyRange id k = true ↔ k.1 = id := by
  obtain ⟨pid, kind⟩ := k
  have hk2 := toNat_le_two kind
  simp only [inKeyRange, depKeyLE, Bool.and_eq_true, Bool.or_eq_true,
    Nat.blt_eq, Nat.ble_eq, beq_iff_eq, toNat_Normal, toNat_Build]
  constructor
  · rintro ⟨h1 | ⟨rfl, -⟩, h2 | ⟨h2a, -⟩⟩
    · exact absurd (h1.trans h2) (lt_irrefl id)
    · exact absurd (h2a ▸ h1) (lt_irrefl id)
    · exact absurd h2 (lt_irrefl _)
    · exact h2a
  · intro h
    exact ⟨Or.inr ⟨h.symm, Nat.zero_le _⟩, Or.inr ⟨h, hk2⟩⟩

theorem featFold_deps (g : Optionality → Optionality) (feats : List Feature)
    (rp : ResolvedPackage) :
    (feats.foldl (fun acc f => acc.updFeature f g) rp).deps = rp.deps := by
  induction feats generalizing rp with
  | nil => rfl
  | cons f rest ih =>
      rw [List.foldl_cons, ih]
      rfl

theorem depFold_features (g : Optionality → Optionality) (depIds : List PackageId)
    (rp : ResolvedPackage) :
    (depIds.foldl (fun acc t => acc.updDepsWithId t g) rp).features = rp.features := by
  induction depIds generalizing rp with
  | nil => rfl
  | cons t rest ih =>
      rw [List.foldl_cons, ih]
      rfl

theorem featFold_getElem (g : Optionality → Optionality) (hid : ∀ o, g (g o) = g o)
    (feats : List Feature) (rp : ResolvedPackage) (j : Nat) (name : Feature)
    (o : Optionality) (h : rp.features[j]? = some (name, o)) :
    (feats.foldl (fun acc f => acc.updFeature f g) rp).features[j]?
      = some (name, if feats.any (fun x => x == name) then g o else o) := by
  induction feats generalizing rp o with
  | nil => simpa using h
  | cons f rest ih =>
      have hstep : (rp.updFeature f g).features[j]?
          = some (name, if name = f then g o else o) := by
        simp only [ResolvedPackage.updFeature, List.getElem?_map, h, Option.map_some']
        by_cases hnf : name = f <;> simp [condMap, hnf]
      rw [List.foldl_cons, ih (rp.updFeature f g) _ hstep]
      by_cases h1 : name = f
      · subst h1
        by_cases h2 : rest.any (fun x => x == name) = true <;>
          simp [List.any_cons, h2, hid o]
      · have hb : (f == name) = false := by
          simp [beq_eq_false_iff_ne, Ne.symm h1]
        by_cases h2 : rest.any (fun x => x == name) = true <;>
          simp [List.any_cons, h1, h2, hb]

theorem depFold_getElem (g : Optionality → Optionality) (hid : ∀ o, g (g o) = g o)
    (depIds : List PackageId) (rp : ResolvedPackage) (j : Nat) (k : DepKey)
    (d : ResolvedDependency) (h : rp.deps[j]? = some (k, d)) :
    (depIds.foldl (fun acc t => acc.updDepsWithId t g) rp).deps[j]?
      = some (k, if depIds.any (fun t => t == k.1)
          then { d with optionality := g d.optionality } else d) := by
  induction depIds generalizing rp d with
  | nil => simpa using h
  | cons t rest ih =>
      have hstep : (rp.updDepsWithId t g).deps[j]?
          = some (k, if k.1 = t then { d with optionality := g d.optionality } else d) := by
        simp only [ResolvedPackage.updDepsWithId, List.getElem?_map, h, Option.map_some']
        by_cases hkt : k.1 = t
        · simp [condMap, (inKeyRange_iff t k).2 hkt, hkt]
        · have hfalse : inKeyRange t k = false := by
            apply Bool.eq_false_iff.mpr
            intro hcontra
            exact hkt ((inKeyRange_iff t k).1 hcontra)
          simp [condMap, hfalse, hkt]
      rw [List.foldl_cons, ih _ _ hstep]
      by_cases h1 : k.1 = t
      · have hb : (t == k.1) = true := by simp [h1]
        by_cases h2 : rest.any (fun x => x == k.1) = true <;>
          cases d <;> simp [List.any_cons, h1, h2, hb, hid]
      · have hb : (t == k.1) = false := by
          simp [beq_eq_false_iff_ne, Ne.symm h1]
        by_cases h2 : rest.any (fun x => x == k.1) = true <;>
          simp [List.any_cons, h1, h2, hb]

/-- What one pass (one resolution, one idempotent write `g`) does to one
feature item: `g` is applied exactly when the resolution reports the feature
active on its package, and nothing else of the entry changes. -/
theorem processResolution_featItem (g : Optionality → Optionality)
    (hid : ∀ o, g (g o) = g o) (res : Resolution) (st : TrackerState)
    (i j : Nat) (id : PackageId) (rp : ResolvedPackage) (name : Feature)
    (o : Optionality) (hi : st[i]? = some (id, rp))
    (hj : rp.features[j]? = some (name, o)) :
    ∃ rp', (processResolution g res st)[i]? = some (id, rp')
      ∧ rp'.features[j]?
          = some (name, if featureReached res id name = true then g o else o) := by
  induction res generalizing st rp o with
  | nil => exact ⟨rp, hi, by simpa [featureReached] using hj⟩
  | cons e rest ih =>
      have hi1 : (updatePkg e.id (applyEntryPkg g e) st)[i]?
          = some (id, if e.id = id then applyEntryPkg g e rp else rp) := by
        simp only [updatePkg, List.getElem?_map, hi, Option.map_some']
        by_cases hide : e.id = id
        · simp [condMap, hide]
        · simp [condMap, hide, Ne.symm hide]
      have hj1 : (if e.id = id then applyEntryPkg g e rp else rp).features[j]?
          = some (name,
              if e.id = id ∧ e.feats.any (fun x => x == name) = true then g o else o) := by
        by_cases hide : e.id = id
        · simp only [hide, if_true, true_and, applyEntryPkg]
          rw [depFold_features]
          exact featFold_getElem g hid e.feats rp j name o hj
        · simp [hide, hj]
      obtain ⟨rp', hrp', hval⟩ := ih (updatePkg e.id (applyEntryPkg g e) st)
        (if e.id = id then applyEntryPkg g e rp else rp) _ hi1 hj1
      refine ⟨rp', hrp', ?_⟩
      rw [hval]
      show _ = some (name,
        if ((e.id == id && e.feats.any fun x => x == name)
            || featureReached rest id name) = true then g o else o)
      by_cases h1 : e.id = id <;>
        by_cases h2 : e.feats.any (fun x => x == name) = true <;>
        by_cases h3 : featureReached rest id name = true <;>
        simp [h1, h2, h3, hid o]

/-- What one pass does to one dependency edge: `g` is applied exactly when
the resolution reports an edge of its package on the key's target identity,
whatever the edge's kind, and nothing else of the entry changes. -/
theorem processResolution_depItem (g : Optionality → Optionality)
    (hid : ∀ o, g (g o) = g o) (res : Resolution) (st : TrackerState)
    (i j : Nat) (id : PackageId) (rp : ResolvedPackage) (k : DepKey)
    (d : ResolvedDependency) (hi : st[i]? = some (id, rp))
    (hj : rp.deps[j]? = some (k, d)) :
    ∃ rp', (processResolution g res st)[i]? = some (id, rp')
      ∧ rp'.deps[j]? = some (k, if depReached res id k.1 = true
          then { d with optionality := g d.optionality } else d) := by
  induction res generalizing st rp d with
  | nil => exact ⟨rp, hi, by simpa [depReached] using hj⟩
  | cons e rest ih =>
      have hi1 : (updatePkg e.id (applyEntryPkg g e) st)[i]?
          = some (id, if e.id = id then applyEntryPkg g e rp else rp) := by
        simp only [updatePkg, List.getElem?_map, hi, Option.map_some']
        by_cases hide : e.id = id
        · simp [condMap, hide]
        · simp [condMap, hide, Ne.symm hide]
      have hj1 : (if e.id = id then applyEntryPkg g e rp else rp).deps[j]?
          = some (k, if e.id = id ∧ e.depIds.any (fun x => x == k.1) = true
              then { d with optionality := g d.optionality } else d) := by
        by_cases hide : e.id = id
        · simp only [hide, if_true, true_and, applyEntryPkg]
          exact depFold_getElem g hid e.depIds _ j k d (by rw [featFold_deps]; exact hj)
        · simp [hide, hj]
      obtain ⟨rp', hrp', hval⟩ := ih (updatePkg e.id (applyEntryPkg g e) st)
        (if e.id = id then applyEntryPkg g e rp else rp) _ hi1 hj1
      refine ⟨rp', hrp', ?_⟩
      rw [hval]
      show _ = some (k,
        if ((e.id == id && e.depIds.any fun x => x == k.1)
            || depReached rest id k.1) = true
        then { d with optionality := g d.optionality } else d)
      by_cases h1 : e.id = id <;>
        by_cases h2 : e.depIds.any (fun x => x == k.1) = true <;>
        by_cases h3 : depReached rest id k.1 = true <;>
        cases d <;>
        simp [h1, h2, h3, hid]

/-- C7: Conditional recording in the feature pass: for every root package
`p` and root feature `f`, `activate` applies `activated_by (p, f)` to
exactly the features and edges the scoped resolution reaches, and
`activated_by` inserts the pair `(p, f)` into `activated_by_features` if and
only if the item is `Optional` and `p` is not already in its
`required_by_pkgs`; otherwise the item is unchanged. -/
theorem claim_C7_feature_pass_recording :
    (∀ (p : PackageName) (f : Feature) (r : Finset PackageName)
        (a : Finset RootFeature),
        (p ∉ r → (Optionality.Optional r a).activated_by (p, f)
            = Optionality.Optional r (insert (p, f) a))
        ∧ (p ∈ r → (Optionality.Optional r a).activated_by (p, f)
            = Optionality.Optional r a)
        ∧ Optionality.Required.activated_by (p, f) = Optionality.Required)
    ∧ (∀ (p : PackageName) (f : Feature) (res : Resolution) (st : TrackerState)
          (i j : Nat) (id : PackageId) (rp : ResolvedPackage) (name : Feature)
          (o : Optionality), st[i]? = some (id, rp)
        → rp.features[j]? = some (name, o)
        → ∃ rp', (activate p f res st)[i]? = some (id, rp')
            ∧ rp'.features[j]? = some (name,
                if featureReached res id name = true
                then o.activated_by (p, f) else o))
    ∧ (∀ (p : PackageName) (f : Feature) (res : Resolution) (st : TrackerState)
          (i j : Nat) (id : PackageId) (rp : ResolvedPackage) (k : DepKey)
          (d : ResolvedDependency), st[i]? = some (id, rp)
        → rp.deps[j]? = some (k, d)
        → ∃ rp', (activate p f res st)[i]? = some (id, rp')
            ∧ rp'.deps[j]? = some (k, if depReached res id k.1 = true
                then { d with optionality := d.optionality.activated_by (p, f) }
                else d)) := by
  refine ⟨?_, ?_, ?_⟩
  · intro p f r a
    refine ⟨fun hmem => ?_, fun hmem => ?_, rfl⟩
    · simp [Optionality.activated_by, hmem]
    · simp [Optionality.activated_by, hmem]
  · intro p f res st i j id rp name o hi hj
    exact processResolution_featItem (fun o => o.activated_by (p, f))
      (fun o => activated_by_idem o (p, f)) res st i j id rp name o hi hj
  · intro p f res st i j id rp k d hi hj
    exact processResolution_depItem (fun o => o.activated_by (p, f))
      (fun o => activated_by_idem o (p, f)) res st i j id rp k d hi hj

/-- C8: Baseline pass covers all edge kinds: the key range iterated by
`iter_deps_with_id_mut` spans all `DependencyKind`s — `Normal`,
`Development` and `Build` — for the given target identity, and
`mark_required` applies `required_by` to every dependency edge keyed by the
reported target identity, whatever its kind. -/
theorem claim_C8_baseline_covers_all_kinds :
    (∀ (id pid : PackageId) (kind : DependencyKind),
        inKeyRange id (pid, kind) = true ↔ pid = id)
    ∧ (∀ (p : PackageName) (res : Resolution) (st : TrackerState) (i j : Nat)
          (id : PackageId) (rp : ResolvedPackage) (k : DepKey)
          (d : ResolvedDependency),
        st[i]? = some (id, rp) → rp.deps[j]? = some (k, d)
        → ∃ rp', (mark_required p res st)[i]? = some (id, rp')
            ∧ rp'.deps[j]? = some (k, if depReached res id k.1 = true
                then { d with optionality := d.optionality.required_by p }
                else d)) := by
  constructor
  · intro id pid kind
    exact inKeyRange_iff id (pid, kind)
  · intro p res st i j id rp k d hi hj
    exact processResolution_depItem (fun o => o.required_by p)
      (fun o => required_by_idem o p) res st i j id rp k d hi hj

theorem hasAndList_eq_false {xs : List BoolExpr} (h : ∀ x ∈ xs, x.hasAnd = false) :
    hasAndList xs = false := by
  induction xs with
  | nil => simp [hasAndList]
  | cons x rest ih =>
      simp only [hasAndList, Bool.or_eq_false_iff]
      exact ⟨h x (List.mem_cons_self x rest), ih fun y hy => h y (List.mem_cons_of_mem _ hy)⟩

theorem hasAnd_ors {xs : List BoolExpr} (h : ∀ x ∈ xs, x.hasAnd = false) :
    (BoolExpr.ors xs).hasAnd = false := by
  cases xs with
  | nil => simp [BoolExpr.ors, BoolExpr.hasAnd]
  | cons x rest =>
      have hors : BoolExpr.ors (x :: rest) = BoolExpr.Or (x :: rest) := rfl
      rw [hors]
      simp only [BoolExpr.hasAnd]
      exact hasAndList_eq_false h

/-- C6: Expression synthesis: `to_expr` maps `Required` to `True`; it maps
`Optional` to the disjunction of one atom per `activated_by_features` entry
querying the key `"<root-package>/<feature>"` and one atom per
`required_by_pkgs` entry querying the bare key `"<root-package>"` (as a
multiset, exactly one atom per entry); the empty disjunction yields `False`;
and the result never contains a conjunction (the grammar has no negation). -/
theorem claim_C6_expression_synthesis :
    (∀ v : String, Optionality.Required.to_expr v = BoolExpr.True)
    ∧ (∀ (v : String) (r : Finset PackageName) (a : Finset RootFeature),
        ∃ atoms : List BoolExpr,
          (Optionality.Optional r a).to_expr v = BoolExpr.ors atoms
          ∧ (atoms : Multiset BoolExpr)
              = a.val.map (fun rf =>
                  BoolExpr.Single (v ++ " ? " ++ rustDebug (rf.1 ++ "/" ++ rf.2)))
                + r.val.map (fun pkg_name =>
                  BoolExpr.Single (v ++ " ? " ++ rustDebug pkg_name)))
    ∧ (∀ v : String, (Optionality.Optional ∅ ∅).to_expr v = BoolExpr.False)
    ∧ (∀ (v : String) (o : Optionality), (o.to_expr v).hasAnd = false) := by
  refine ⟨fun v => rfl, ?_, ?_, ?_⟩
  · intro v r a
    refine ⟨_, rfl, ?_⟩
    rw [← Multiset.coe_add, ← Multiset.map_coe, ← Multiset.map_coe,
      sortRootFeatures, sortNames, Finset.sort_eq, Finset.sort_eq]
    rfl
  · intro v
    simp [Optionality.to_expr, sortRootFeatures, sortNames, Finset.sort_empty,
      BoolExpr.ors]
  · intro v o
    cases o with
    | Required => simp [Optionality.to_expr, BoolExpr.hasAnd]
    | Optional r a =>
        show (BoolExpr.ors _).hasAnd = false
        apply hasAnd_ors
        intro x hx
        rcases List.mem_append.1 hx with h | h <;>
          obtain ⟨y, _, rfl⟩ := List.mem_map.1 h <;>
          simp [BoolExpr.hasAnd]

/-- C9: Missing-linkage recovery: a dependency declaration group whose
resolved target has no library target produces no edge and no failure —
`new` yields exactly the package it would build had the declaration been
absent, so every other declaration is still merged and the rest of the
package is unaffected. -/
theorem claim_C9_missing_linkage (pre post : List (PackageId × List RawDependency))
    (id : PackageId) (raws : List RawDependency) (features : List Feature)
    (hasLib : PackageId → Bool) (crateName : PackageId → Option String)
    (h : hasLib id = false) :
    ResolvedPackage.new ⟨pre ++ (id, raws) :: post, features, hasLib, crateName⟩
      = ResolvedPackage.new ⟨pre ++ post, features, hasLib, crateName⟩ := by
  simp [ResolvedPackage.new, List.filterMap_append, List.filterMap_cons, h]

theorem claim_C1_witness :
    (List.Forall₂ (fun a b => a.1 = b.1 ∧ a.2.Perm b.2) exRootsA exRootsMid
      ∧ exRootsMid.Perm exRootsB ∧ (exRootsA.map Prod.fst).Nodup)
    ∧ runTracker exInputs exRootsA exStateTracker
        = runTracker exInputs exRootsB exStateTracker := by
  have h1 : List.Forall₂ (fun a b => a.1 = b.1 ∧ a.2.Perm b.2) exRootsA exRootsMid :=
    List.Forall₂.cons ⟨rfl, by decide⟩
      (List.Forall₂.cons ⟨rfl, by decide⟩ List.Forall₂.nil)
  have h2 : exRootsMid.Perm exRootsB := by decide
  have h3 : (exRootsA.map Prod.fst).Nodup := by decide
  exact ⟨⟨h1, h2, h3⟩,
    claim_C1_order_independence exInputs exStateTracker exRootsA exRootsMid exRootsB
      h1 h2 h3⟩

theorem claim_C3_witness :
    (exRPC3.deps[0]? = some ((5, DependencyKind.Normal), exDepC3)
      ∧ exDepC3.optionality = Optionality.Optional {"a", "b"} ∅
      ∧ ({"a", "b"} : Finset PackageName).card = 2)
    ∧ ∃ d', (simplify_one 2 exRPC3).deps[0]? = some ((5, DependencyKind.Normal), d')
        ∧ d'.optionality = Optionality.Required :=
  ⟨⟨rfl, rfl, by decide⟩,
    (claim_C3_universal_promotion 2 exRPC3).1 0 (5, DependencyKind.Normal) exDepC3
      {"a", "b"} ∅ rfl rfl (by decide)⟩

theorem claim_C4_witness :
    (((9, DependencyKind.Development),
        (⟨"dev", Optionality.Required, none⟩ : ResolvedDependency))
        ∈ (simplify_one 3 exRPC4).deps
      ∧ (((9, DependencyKind.Development),
          (⟨"dev", Optionality.Required, none⟩ : ResolvedDependency)) :
            DepKey × ResolvedDependency).1.2 = DependencyKind.Development)
    ∧ (((9, DependencyKind.Development),
        (⟨"dev", Optionality.Required, none⟩ : ResolvedDependency)) :
          DepKey × ResolvedDependency).2.optionality = Optionality.Required :=
  ⟨⟨by decide, rfl⟩,
    claim_C4_development_forced 3 exRPC4
      ((9, DependencyKind.Development), ⟨"dev", Optionality.Required, none⟩)
      (by decide) rfl⟩

theorem claim_C5_witness :
    (all_eq (rule12 2 exRPC5).optionalities = true
      ∧ Optionality.Required ∈ (simplify_one 2 exRPC5).optionalities)
    ∧ Optionality.Required = Optionality.Required :=
  ⟨⟨by decide, by decide⟩,
    (claim_C5_homogeneous_collapse.1 2 exRPC5 (by decide))
      Optionality.Required (by decide)⟩

theorem claim_C7_witness :
    (exStateTracker[0]? = some (7, exRPTracker)
      ∧ exRPTracker.features[0]? = some ("std", Optionality.default))
    ∧ ∃ rp', (activate "a" "x" exResC7 exStateTracker)[0]? = some (7, rp')
        ∧ rp'.features[0]? = some ("std",
            if featureReached exResC7 7 "std" = true
            then Optionality.default.activated_by ("a", "x") else Optionality.default) :=
  ⟨⟨rfl, rfl⟩,
    claim_C7_feature_pass_recording.2.1 "a" "x" exResC7 exStateTracker 0 0 7
      exRPTracker "std" Optionality.default rfl rfl⟩

theorem claim_C8_witness :
    (exStateC8[0]? = some (7, exRPC8)
      ∧ exRPC8.deps[0]?
          = some ((9, DependencyKind.Development), ⟨"dev", Optionality.default, none⟩))
    ∧ ∃ rp', (mark_required "a" exResC8 exStateC8)[0]? = some (7, rp')
        ∧ rp'.deps[0]? = some ((9, DependencyKind.Development),
            if depReached exResC8 7 (9, DependencyKind.Development).1 = true
            then { (⟨"dev", Optionality.default, none⟩ : ResolvedDependency) with
                optionality := Optionality.default.required_by "a" }
            else ⟨"dev", Optionality.default, none⟩) :=
  ⟨⟨rfl, rfl⟩,
    claim_C8_baseline_covers_all_kinds.2 "a" exResC8 exStateC8 0 0 7 exRPC8
      (9, DependencyKind.Development) ⟨"dev", Optionality.default, none⟩ rfl rfl⟩

theorem claim_C9_witness :
    exHasLib 5 = false
    ∧ ResolvedPackage.new ⟨[] ++ (5, exRawsC9) :: [(3, exRawsC9)], ["f"],
        exHasLib, exCrateName⟩
      = ResolvedPackage.new ⟨[] ++ [(3, exRawsC9)], ["f"], exHasLib, exCrateName⟩ :=
  ⟨rfl, claim_C9_missing_linkage [] [(3, exRawsC9)] 5 exRawsC9 ["f"]
    exHasLib exCrateName rfl⟩

theorem claim_C10_witness :
    (exRPC10.deps[0]? = some ((4, DependencyKind.Normal), exDepC10)
      ∧ exDepC10.optionality = Optionality.Required)
    ∧ ∃ d', (simplify_one 9 exRPC10).deps[0]? = some ((4, DependencyKind.Normal), d')
        ∧ d'.optionality = Optionality.Required :=
  ⟨⟨rfl, rfl⟩,
    claim_C10_required_absorbing.2.2.2.1 9 exRPC10 0 (4, DependencyKind.Normal)
      exDepC10 rfl rfl⟩

end Cargo2nix
